import Mathlib

/-!
Verification development for the GSFusion octree storage-and-query engine and
its colour utilities.

The octree data model, allocator, fetcher and visitor layer are shallowly
embedded below.  The repository ships only the declarations and documentation
of the visitor/allocator/fetcher (`include/se/map/octree/visitor.hpp`); their
implementation files are not part of the source tree, so those operations are
modelled from the specification text, faithfully to its words.  The
`OctantBase` constructor (`src/map/octant.cpp`) and the colour conversion
functions (`src/common/colour_utils.cpp`) are translated directly from the
source.

Machine floating-point values are modelled as rationals (`ℚ`), with NaN
represented by `Option.none` where the code tests `std::isnan`.  Machine
integers are modelled as `ℕ`/`ℤ` with explicit truncation where overflow or
narrowing matters.
-/

/-- Integer voxel coordinate (x, y, z).  In-bounds coordinates of the octree
are non-negative, so natural numbers are used; the child-index bit tests of
the fetcher and allocator act on the binary representation. -/
abbrev V3 := ℕ × ℕ × ℕ

/-- Fractional voxel coordinate (x, y, z) used by interpolation queries. -/
abbrev QV3 := ℚ × ℚ × ℚ

/-- Modelled from the spec: a TSDF voxel datum — a signed-distance estimate
plus an accumulated observation weight ("a TSDF cell holds a signed distance
estimate plus an accumulated weight"). -/
structure TsdfData where
  tsdf : ℚ
  weight : ℕ
deriving DecidableEq

/-- Modelled from the spec: the field's designated initial/empty data value —
no observations accumulated ("unallocated space is defined to be empty"). -/
def initData : TsdfData := ⟨1, 0⟩

/-- Modelled from the spec: the field's validity threshold on the accumulated
observation weight ("'Valid' means weight/observation count exceeds the
field's validity threshold"). -/
def validityThreshold : ℕ := 0

/-- Modelled from the spec: a datum is valid when its accumulated weight
exceeds the validity threshold. -/
def isValid (d : TsdfData) : Bool := decide (validityThreshold < d.weight)

/-- Number of bits of a coordinate addressing inside one block: blocks own an
8×8×8 voxel grid. -/
def blockBits : ℕ := 3

/-- Coarsest scale stored inside one block (scale 0 is one voxel per cell,
scale 3 is the whole 8×8×8 block aggregated to one value). -/
def maxBlockScale : ℕ := 3

/-- Per-scale voxel storage of a block: scale level, then the local cell
coordinate at that scale, to the stored datum. -/
abbrev BlockData := ℕ → V3 → TsdfData

/-- Modelled from the spec: an octant is either an internal Node (routing,
with a representative datum and up to 8 children) or a leaf Block owning the
per-voxel data at scales 0..`maxBlockScale`. -/
inductive Octant : Type
  | node (data : TsdfData) (children : Fin 8 → Option Octant)
  | block (vox : BlockData)

/-- Modelled from the spec: the octree owns the root octant and fixes the
static shape — `levels` node levels above the block level, so the coordinate
extent is `2 ^ (levels + blockBits)` voxels per side. -/
structure Octree where
  levels : ℕ
  root : Octant

/-- Modelled from the spec: the child index is derived from which half of each
of the 3 axes the coordinate falls into relative to the octant's center —
a bit test per axis, x contributing 1, y contributing 2, z contributing 4. -/
def childIdx (c : V3) (bit : ℕ) : Fin 8 :=
  ⟨(c.1.testBit bit).toNat + 2 * ((c.2.1.testBit bit).toNat) + 4 * ((c.2.2.testBit bit).toNat), by
    have h1 := Bool.toNat_lt (c.1.testBit bit)
    have h2 := Bool.toNat_lt (c.2.1.testBit bit)
    have h3 := Bool.toNat_lt (c.2.2.testBit bit)
    omega⟩

/-- Local cell coordinate of a voxel inside its block at a given scale:
the low `blockBits` bits of each component, coarsened by the scale. -/
def scaledLocal (c : V3) (s : ℕ) : V3 :=
  ((c.1 % 8) >>> s, (c.2.1 % 8) >>> s, (c.2.2 % 8) >>> s)

/-- Minimal corner of the block owning a coordinate: the low `blockBits` bits
cleared. -/
def blockBase (c : V3) : V3 :=
  ((c.1 >>> 3) <<< 3, (c.2.1 >>> 3) <<< 3, (c.2.2 >>> 3) <<< 3)

/-- Modelled from the spec: the fetcher's descent from an octant with `l`
node levels remaining — identical indexing logic to the allocator's but
creating nothing; the first missing child makes the whole fetch return
"not allocated" (`none`).  A malformed tree (block above the block level or
node at it) also yields `none`. -/
def fetchOct : ℕ → Octant → V3 → Option BlockData
  | 0, .block vox, _ => some vox
  | 0, .node _ _, _ => none
  | _ + 1, .block _, _ => none
  | l + 1, .node _ ch, c =>
    match ch (childIdx c (l + blockBits)) with
    | none => none
    | some o => fetchOct l o c

/-- Modelled from the spec: `fetch(octree, coord)` — read-only resolution of a
coordinate to the block owning it, or `none` when not allocated. -/
def fetch (t : Octree) (c : V3) : Option BlockData :=
  fetchOct t.levels t.root c

/-- A locality hint: a previously fetched block, identified by its minimal
corner coordinate together with its voxel storage. -/
structure BlockRef where
  base : V3
  vox : BlockData

/-- Modelled from the spec: the hinted fetch first checks whether the
coordinate lies within the hint block's coordinate extent; if so it returns
the hint directly, otherwise it performs the ordinary fetch. -/
def fetchHinted (t : Octree) (hint : BlockRef) (c : V3) : Option BlockData :=
  if blockBase c = hint.base then some hint.vox else fetch t c

/-- Modelled from the spec: `getData(octree, coord)` — fetches the owning
block; if none, returns the field's designated initial/empty value; if found,
returns the scale-0 value. -/
def getData (t : Octree) (c : V3) : TsdfData :=
  match fetch t c with
  | none => initData
  | some vox => vox 0 (scaledLocal c 0)

/-- Modelled from the spec: the hinted `getData` overload, using the hinted
fetch. -/
def getDataHinted (t : Octree) (hint : BlockRef) (c : V3) : TsdfData :=
  match fetchHinted t hint c with
  | none => initData
  | some vox => vox 0 (scaledLocal c 0)

/-- Modelled from the spec: `getField` wraps `getData`, projecting out the
scalar field value and returning "no value" when the underlying data is not
valid (weight below threshold). -/
def getField (t : Octree) (c : V3) : Option ℚ :=
  let d := getData t c
  if isValid d then some d.tsdf else none

/-- Modelled from the spec: the hinted `getField` overload. -/
def getFieldHinted (t : Octree) (hint : BlockRef) (c : V3) : Option ℚ :=
  let d := getDataHinted t hint c
  if isValid d then some d.tsdf else none

/-- Fractional part of a rational coordinate component. -/
def fracPart (q : ℚ) : ℚ := q - ⌊q⌋

/-- Offset of interpolation corner `i` within the enclosing integer cell,
x contributing bit 0, y bit 1, z bit 2 (matching the child-index order). -/
def cornerOffset (i : Fin 8) : V3 := (i.val % 2, i.val / 2 % 2, i.val / 4)

/-- Minimal corner of the integer cell enclosing a fractional coordinate. -/
def interpBase (cf : QV3) : V3 := (⌊cf.1⌋.toNat, ⌊cf.2.1⌋.toNat, ⌊cf.2.2⌋.toNat)

/-- Integer coordinate of interpolation corner `i` bracketing `cf`. -/
def cornerCoord (cf : QV3) (i : Fin 8) : V3 :=
  ((interpBase cf).1 + (cornerOffset i).1,
   (interpBase cf).2.1 + (cornerOffset i).2.1,
   (interpBase cf).2.2 + (cornerOffset i).2.2)

/-- Modelled from the spec: per-axis trilinear weight — `1 - t` on the low
side of the cell, `t` on the high side, `t` the fractional offset. -/
def axisWeight (t : ℚ) (b : ℕ) : ℚ := if b = 0 then 1 - t else t

/-- Modelled from the spec: the standard trilinear weight of corner `i`,
computed once per axis and combined multiplicatively. -/
def cornerWeight (cf : QV3) (i : Fin 8) : ℚ :=
  axisWeight (fracPart cf.1) (cornerOffset i).1 *
    axisWeight (fracPart cf.2.1) (cornerOffset i).2.1 *
    axisWeight (fracPart cf.2.2) (cornerOffset i).2.2

/-- Modelled from the spec: `getFieldInterp(octree, coord_f)` — trilinear
interpolation of the scalar field at a fractional coordinate.  The 8 integer
corners bracketing `coord_f` are identified; the interpolation succeeds only
if every one of the 8 corners yields a valid field value, and then blends the
corner values with the trilinear weights; if any corner is invalid or
unallocated the whole interpolation returns "no value". -/
def getFieldInterp (t : Octree) (cf : QV3) : Option ℚ :=
  if ∀ i : Fin 8, (getField t (cornerCoord cf i)).isSome = true then
    some (∑ i : Fin 8, cornerWeight cf i * (getField t (cornerCoord cf i)).getD 0)
  else none

/-- Modelled from the spec: `getFieldGrad(octree, coord_f)` — central
difference gradient, one component per axis, each computed as
`(getFieldInterp(coord_f + half_step·axis) − getFieldInterp(coord_f −
half_step·axis)) / step` with `step` one voxel at the (single) resolution
scale used; valid only if both interpolated samples on all 3 axes are
valid. -/
def getFieldGrad (t : Octree) (cf : QV3) : Option QV3 :=
  match getFieldInterp t (cf.1 + 1/2, cf.2.1, cf.2.2),
      getFieldInterp t (cf.1 - 1/2, cf.2.1, cf.2.2),
      getFieldInterp t (cf.1, cf.2.1 + 1/2, cf.2.2),
      getFieldInterp t (cf.1, cf.2.1 - 1/2, cf.2.2),
      getFieldInterp t (cf.1, cf.2.1, cf.2.2 + 1/2),
      getFieldInterp t (cf.1, cf.2.1, cf.2.2 - 1/2) with
  | some xp, some xm, some yp, some ym, some zp, some zm =>
    some ((xp - xm) / 1, (yp - ym) / 1, (zp - zm) / 1)
  | _, _, _, _, _, _ => none

/-- Result of the ancestor-returning fetch used by multi-resolution
`getData`: either the owning block, or the deepest existing ancestor node's
representative datum together with that ancestor's scale (the base-2
logarithm of its edge length). -/
inductive FetchAnc : Type
  | blk (vox : BlockData)
  | anc (d : TsdfData) (scale : ℕ)

/-- Modelled from the spec: descent identical to `fetchOct` but returning the
deepest existing ancestor octant when the path ends early, for callers that
need a coarse fallback. -/
def fetchAncOct : ℕ → Octant → V3 → FetchAnc
  | 0, .block vox, _ => .blk vox
  | 0, .node d _, _ => .anc d blockBits
  | _ + 1, .block vox, _ => .blk vox
  | l + 1, .node d ch, c =>
    match ch (childIdx c (l + blockBits)) with
    | none => .anc d (l + 1 + blockBits)
    | some o => fetchAncOct l o c

/-- Modelled from the spec: walk the scale levels of a block starting at
scale `s`, coarsening until a valid value is found; `none` when the block's
maximum scale is exhausted without finding one. -/
def findValidScale (vox : BlockData) (c : V3) (s : ℕ) : Option ℕ :=
  if maxBlockScale < s then none
  else if isValid (vox s (scaledLocal c s)) then some s
  else findValidScale vox c (s + 1)
termination_by maxBlockScale + 1 - s
decreasing_by omega

/-- Representative datum of an octant, used for the coarse fallback: a node's
stored datum, or a block's coarsest-scale aggregate. -/
def octantRep (c : V3) : Octant → TsdfData
  | .node d _ => d
  | .block vox => vox maxBlockScale (scaledLocal c maxBlockScale)

/-- Modelled from the spec: multi-resolution `getData(octree, coord,
scale_desired)` returning the datum together with `scale_returned`.  It walks
scale levels starting at `scale_desired`, coarsening until a valid value is
found; when the block's maximum scale is exhausted it falls back to the
coarsest ancestor octant's (the root's) representative value, and when the
coordinate is not allocated down to a block it falls back to the deepest
existing ancestor's representative value.  Following the header documentation
("max (scale desired, finest scale with valid data)"), the returned scale is
clamped from below by `scale_desired`. -/
def getDataMR (t : Octree) (c : V3) (sd : ℕ) : TsdfData × ℕ :=
  match fetchAncOct t.levels t.root c with
  | .blk vox =>
    match findValidScale vox c sd with
    | some s => (vox s (scaledLocal c s), s)
    | none => (octantRep c t.root, max sd (t.levels + blockBits))
  | .anc d s => (d, max sd s)

/-- Modelled from the spec: a freshly created octant — a block with empty
data at the final level, a childless node above it. -/
def freshOctant : ℕ → Octant
  | 0 => .block (fun _ _ => initData)
  | _ + 1 => .node initData (fun _ => none)

/-- Modelled from the spec: the allocator's walk from an octant with `l` node
levels remaining, creating the child node (or, at the final level, the block)
if absent.  Structure already present is reused, never duplicated. -/
def allocOct : ℕ → Octant → V3 → Octant
  | 0, o, _ => o
  | _ + 1, .block vox, _ => .block vox
  | l + 1, .node d ch, c =>
    let i := childIdx c (l + blockBits)
    let child := (ch i).getD (freshOctant l)
    .node d (Function.update ch i (some (allocOct l child c)))

/-- Modelled from the spec: `allocate(octree, coord)` ensures the full path
of nodes down to the block owning the coordinate exists and returns that
block (paired with the updated octree, state passing standing in for the
mutation of the C++ tree). -/
def allocate (t : Octree) (c : V3) : Octree × Option BlockData :=
  let t2 : Octree := ⟨t.levels, allocOct t.levels t.root c⟩
  (t2, fetch t2 c)

/-- Structural well-formedness of an octant with `l` node levels remaining:
blocks exactly at the final level. -/
def levelOK : ℕ → Octant → Bool
  | 0, .block _ => true
  | 0, .node _ _ => false
  | _ + 1, .block _ => false
  | l + 1, .node _ ch =>
    (List.finRange 8).all fun i =>
      match ch i with
      | none => true
      | some o => levelOK l o

/-- The octant base class state (`src/map/octant.cpp`): coordinate, last
touched time stamp, parent back-reference (a nullable handle), 8-bit children
presence mask, activity flag and the node/block discriminator. -/
structure OctantBase where
  coord_ : ℤ × ℤ × ℤ
  time_stamp_ : ℤ
  parent_ptr_ : Option ℕ
  children_mask_ : ℕ
  is_active_ : Bool
  is_block_ : Bool

/-- The `OctantBase` constructor translated from `src/map/octant.cpp`: the
member initializer list sets `coord_` to `coord`, `time_stamp_` to `-1`,
`parent_ptr_` to `parent_ptr`, `children_mask_` to `0`, `is_active_` to
`true` and `is_block_` to `is_block`. -/
def OctantBase.construct (is_block : Bool) (coord : ℤ × ℤ × ℤ) (parent_ptr : Option ℕ) : OctantBase :=
  ⟨coord, -1, parent_ptr, 0, true, is_block⟩

/-- Truncation toward zero of a rational, modelling C++ `static_cast<int>`
applied to a floating-point value. -/
def ratTrunc (q : ℚ) : ℤ := if 0 ≤ q then ⌊q⌋ else ⌈q⌉

/-- Narrowing of a non-negative rational colour channel to a byte, modelling
the implicit conversion to `uint8_t` at the `pack_rgba` call. -/
def toByte (q : ℚ) : ℕ := (ratTrunc q).toNat % 256

/-- Modelled from the spec: `se::pack_rgba` packs the four channels into one
32-bit word, red in the least significant byte and alpha in the most
significant byte (the constants `0xFF000000`, `0xFF808080`, `0xFFFFFFFF`
produced by `depth_to_rgba` fix this layout). -/
def pack_rgba (r g b a : ℕ) : ℕ :=
  r % 256 + g % 256 * 256 + b % 256 * 65536 + a % 256 * 16777216

/-- `gray_to_rgba` translated from `src/common/colour_utils.cpp`: maps a
normalized value `h` to an RGBA colour through six hue sextants, always with
alpha 255. -/
def gray_to_rgba (h : ℚ) : ℕ :=
  let v : ℚ := 3/4
  if 0 < v then
    let m : ℚ := 1/4
    let sv : ℚ := 6667/10000
    let h6 : ℚ := h * 6
    let sextant : ℤ := ratTrunc h6
    let fract : ℚ := h6 - sextant
    let vsf : ℚ := v * sv * fract
    let mid1 : ℚ := m + vsf
    let mid2 : ℚ := v - vsf
    let rgb : ℚ × ℚ × ℚ :=
      if sextant = 0 then (v, mid1, m)
      else if sextant = 1 then (mid2, v, m)
      else if sextant = 2 then (m, v, mid1)
      else if sextant = 3 then (m, mid2, v)
      else if sextant = 4 then (mid1, m, v)
      else if sextant = 5 then (v, m, mid2)
      else (0, 0, 0)
    pack_rgba (toByte (rgb.1 * 255)) (toByte (rgb.2.1 * 255)) (toByte (rgb.2.2 * 255)) 255
  else pack_rgba (toByte 0) (toByte 0) (toByte 0) 255

/-- Per-pixel body of `depth_to_rgba` (`src/common/colour_utils.cpp`).  The
depth is a float; NaN is modelled as `none`.  The branch order follows the
source: black for non-positive or NaN depth, gray below `min_depth`, white
above `max_depth`, otherwise the colour of the normalized depth (the source
multiplies by the precomputed reciprocal of the depth range). -/
def depth_to_rgba_pixel (depth : Option ℚ) (min_depth max_depth : ℚ) : ℕ :=
  match depth with
  | none => 0xFF000000
  | some d =>
    if d ≤ 0 then 0xFF000000
    else if d < min_depth then 0xFF808080
    else if max_depth < d then 0xFFFFFFFF
    else gray_to_rgba ((d - min_depth) * (1 / (max_depth - min_depth)))

/-- `depth_to_rgba` over a whole image, the 2-D pixel loop flattened to a
list in row-major order. -/
def depth_to_rgba (img : List (Option ℚ)) (min_depth max_depth : ℚ) : List ℕ :=
  img.map (fun d => depth_to_rgba_pixel d min_depth max_depth)

/-- Modelled from the spec: the `se::pack_rgba` overload taking a colour
triple and packing it with full alpha. -/
def pack_rgba_v3 (c : ℕ × ℕ × ℕ) : ℕ := pack_rgba c.1 c.2.1 c.2.2 255

/-- The palette index computed by `semantics_to_rgba`
(`src/common/colour_utils.cpp`): the class id modulo the palette size. -/
def paletteIndex (palette : List (ℕ × ℕ × ℕ)) (class_id : ℕ) : ℕ :=
  class_id % palette.length

/-- Per-pixel body of `semantics_to_rgba` (`src/common/colour_utils.cpp`):
the colour palette (`se::colours::scale`, supplied here as a parameter as its
definition is outside this tree) indexed at the class id modulo the palette
size, packed with full alpha. -/
def semantics_to_rgba_pixel (palette : List (ℕ × ℕ × ℕ)) (class_id : ℕ) : ℕ :=
  pack_rgba_v3 (palette.getD (paletteIndex palette class_id) (0, 0, 0))

/-- `semantics_to_rgba` over a whole image, the pixel loop flattened to a
list. -/
def semantics_to_rgba (palette : List (ℕ × ℕ × ℕ)) (img : List ℕ) : List ℕ :=
  img.map (semantics_to_rgba_pixel palette)

/-- Concrete test octree: one node level, nothing allocated. -/
def emptyNodeTree : Octree := ⟨1, .node initData (fun _ => none)⟩

/-- Concrete block storage holding allocated but invalid data (zero weight). -/
def invalidVox : BlockData := fun _ _ => ⟨5, 0⟩

/-- Concrete test octree: one node level, every child an allocated block of
invalid data. -/
def invalidBlockTree : Octree := ⟨1, .node initData (fun _ => some (.block invalidVox))⟩

/-- Concrete block storage holding valid data of value 1/2 everywhere. -/
def fullVox : BlockData := fun _ _ => ⟨1/2, 1⟩

/-- Concrete test octree: one node level, every child an allocated block of
valid data. -/
def fullTree : Octree := ⟨1, .node initData (fun _ => some (.block fullVox))⟩

/-- Concrete test octree: one node level, only child 0 allocated. -/
def halfTree : Octree :=
  ⟨1, .node initData (fun i => if i.val = 0 then some (.block fullVox) else none)⟩

/-- Concrete two-entry colour palette for the semantics conversion tests. -/
def testPalette : List (ℕ × ℕ × ℕ) := [(10, 20, 30), (40, 50, 60)]

/-- Concrete multi-resolution block storage: invalid at scale 0, valid from
scale 1 upward. -/
def mrVox : BlockData := fun s _ => if s = 0 then ⟨0, 0⟩ else ⟨2, 3⟩

/-- Concrete test octree for multi-resolution queries: one node level, every
child the multi-scale block `mrVox`. -/
def mrTree : Octree := ⟨1, .node initData (fun _ => some (.block mrVox))⟩

/-! ## Theorems -/

/-- C8: Every call of the `OctantBase` constructor with arguments
`(is_block, coord, parent_ptr)` produces an octant whose `coord_` equals
`coord`, `is_block_` equals `is_block`, `parent_ptr_` equals `parent_ptr`,
`children_mask_` equals 0, `is_active_` is true and `time_stamp_` equals
`-1` — freshly constructed octants start active, childless, and with a
negative sentinel time stamp. -/
theorem octantBase_construct_fields (is_block : Bool) (coord : ℤ × ℤ × ℤ)
    (parent_ptr : Option ℕ) :
    (OctantBase.construct is_block coord parent_ptr).coord_ = coord ∧
    (OctantBase.construct is_block coord parent_ptr).is_block_ = is_block ∧
    (OctantBase.construct is_block coord parent_ptr).parent_ptr_ = parent_ptr ∧
    (OctantBase.construct is_block coord parent_ptr).children_mask_ = 0 ∧
    (OctantBase.construct is_block coord parent_ptr).is_active_ = true ∧
    (OctantBase.construct is_block coord parent_ptr).time_stamp_ = -1 :=
  ⟨rfl, rfl, rfl, rfl, rfl, rfl⟩

/-- C1: For an in-bounds voxel coordinate that was never allocated, `getData`
returns the field's designated initial/empty value (not an error) and
`getField` returns no value; and for a coordinate whose stored data is
present but not valid (weight below the validity threshold), `getField`
returns no value rather than a zero or garbage scalar. -/
theorem getData_empty_getField_invalid (t : Octree) (c : V3) :
    (fetch t c = none → getData t c = initData ∧ getField t c = none) ∧
    (∀ vox : BlockData, fetch t c = some vox →
      isValid (vox 0 (scaledLocal c 0)) = false → getField t c = none) := by
  constructor
  · intro h
    have hd : getData t c = initData := by simp [getData, h]
    refine ⟨hd, ?_⟩
    simp [getField, hd, isValid, initData, validityThreshold]
  · intro vox h hv
    have hd : getData t c = vox 0 (scaledLocal c 0) := by simp [getData, h]
    simp [getField, hd, hv]

/-- Witness for C1: in a concrete octree with an unallocated coordinate,
`getData` evaluates to the empty value and `getField` to no value; in a
concrete octree with an allocated block of weight-0 data, `getField`
evaluates to no value. -/
theorem getData_empty_getField_invalid_witness :
    (fetch emptyNodeTree (0, 0, 0) = none ∧
      getData emptyNodeTree (0, 0, 0) = initData ∧
      getField emptyNodeTree (0, 0, 0) = none) ∧
    (fetch invalidBlockTree (1, 2, 3) = some invalidVox ∧
      isValid (invalidVox 0 (scaledLocal (1, 2, 3) 0)) = false ∧
      getField invalidBlockTree (1, 2, 3) = none) := by
  have h1 : fetch emptyNodeTree (0, 0, 0) = none := rfl
  have h2 : fetch invalidBlockTree (1, 2, 3) = some invalidVox := rfl
  have h3 : isValid (invalidVox 0 (scaledLocal (1, 2, 3) 0)) = false := rfl
  have e1 := (getData_empty_getField_invalid emptyNodeTree (0, 0, 0)).1 h1
  have e2 := (getData_empty_getField_invalid invalidBlockTree (1, 2, 3)).2 invalidVox h2 h3
  exact ⟨⟨h1, e1.1, e1.2⟩, ⟨h2, h3, e2⟩⟩

/-- C2: `getFieldInterp` returns a value only if all 8 integer corner voxels
bracketing the fractional coordinate yield a valid field value; if any one of
the 8 corners is invalid or unallocated it returns no value regardless of the
other 7 — a partial blend is never produced. -/
theorem getFieldInterp_strict (t : Octree) (cf : QV3) (i : Fin 8)
    (h : getField t (cornerCoord cf i) = none) :
    getFieldInterp t cf = none := by
  have hc : ¬ ∀ j : Fin 8, (getField t (cornerCoord cf j)).isSome = true := by
    intro hall
    have h2 := hall i
    rw [h] at h2
    simp at h2
  simp [getFieldInterp, hc]

/-- Witness for C2: at the concrete fractional coordinate (7.5, 0.5, 0.5) of
an octree whose corner (8, 0, 0) is unallocated, the interpolation evaluates
to no value even though the other corners are valid. -/
theorem getFieldInterp_strict_witness :
    getField halfTree (cornerCoord ((15 : ℚ)/2, 1/2, 1/2) 1) = none ∧
    getFieldInterp halfTree ((15 : ℚ)/2, 1/2, 1/2) = none := by
  have hcc : cornerCoord ((15 : ℚ)/2, 1/2, 1/2) 1 = (8, 0, 0) := by
    simp only [cornerCoord, interpBase, cornerOffset]
    norm_num
    all_goals decide
  have h : getField halfTree (cornerCoord ((15 : ℚ)/2, 1/2, 1/2) 1) = none := by
    rw [hcc]
    rfl
  exact ⟨h, getFieldInterp_strict halfTree _ 1 h⟩

/-- C10: `semantics_to_rgba` indexes the colour palette at the class id
modulo the palette size, so the access is in bounds for arbitrary class ids,
and class ids that differ by a multiple of the palette size map to the same
colour. -/
theorem semantics_palette_mod (palette : List (ℕ × ℕ × ℕ)) (hne : palette ≠ [])
    (i j k : ℕ) :
    paletteIndex palette i < palette.length ∧
    (paletteIndex palette i = paletteIndex palette j →
      semantics_to_rgba_pixel palette i = semantics_to_rgba_pixel palette j) ∧
    semantics_to_rgba_pixel palette (i + k * palette.length) =
      semantics_to_rgba_pixel palette i := by
  have hlen : 0 < palette.length := List.length_pos.mpr hne
  refine ⟨Nat.mod_lt _ hlen, ?_, ?_⟩
  · intro h
    simp [semantics_to_rgba_pixel, h]
  · simp [semantics_to_rgba_pixel, paletteIndex, Nat.add_mul_mod_self_right]

/-- Witness for C10: on a concrete two-colour palette, class id 5 is mapped
in bounds, agrees with class id 7, and is invariant under adding three
palette lengths. -/
theorem semantics_palette_mod_witness :
    paletteIndex testPalette 5 < testPalette.length ∧
    semantics_to_rgba_pixel testPalette 5 = semantics_to_rgba_pixel testPalette 7 ∧
    semantics_to_rgba_pixel testPalette (5 + 3 * testPalette.length) =
      semantics_to_rgba_pixel testPalette 5 := by
  have h := semantics_palette_mod testPalette (by decide) 5 7 3
  exact ⟨h.1, h.2.1 (by decide), h.2.2⟩

/-- Left-shifting by the block bits is injective. -/
theorem shiftLeft3_inj (a b : ℕ) (h : a <<< 3 = b <<< 3) : a = b := by
  rw [Nat.shiftLeft_eq, Nat.shiftLeft_eq] at h
  have h8 : (0 : ℕ) < 2 ^ 3 := by norm_num
  exact Nat.eq_of_mul_eq_mul_right h8 h

/-- Clearing the low block bits and re-extracting the high bits is the
identity on the high bits. -/
theorem shiftRL (a : ℕ) : ((a >>> 3) <<< 3) >>> 3 = a >>> 3 := by
  rw [Nat.shiftLeft_eq, Nat.shiftRight_eq_div_pow]
  have h8 : (2 : ℕ) ^ 3 = 8 := by norm_num
  rw [h8]
  omega

/-- The block base of a block base is itself. -/
theorem blockBase_idem (c : V3) : blockBase (blockBase c) = blockBase c := by
  simp [blockBase, shiftRL]

/-- Components with equal high bits agree on every bit at or above the block
bits. -/
theorem testBit_high_eq (a b l : ℕ) (h : a >>> 3 = b >>> 3) :
    a.testBit (l + 3) = b.testBit (l + 3) := by
  have ha : (a >>> 3).testBit l = a.testBit (l + 3) := by
    rw [Nat.testBit_shiftRight, Nat.add_comm 3 l]
  have hb : (b >>> 3).testBit l = b.testBit (l + 3) := by
    rw [Nat.testBit_shiftRight, Nat.add_comm 3 l]
  rw [← ha, ← hb, h]

/-- Coordinates within the same block extent produce the same child index at
every node level. -/
theorem childIdx_eq_of_blockBase (c c2 : V3) (l : ℕ) (h : blockBase c = blockBase c2) :
    childIdx c (l + blockBits) = childIdx c2 (l + blockBits) := by
  have h1 : c.1 >>> 3 = c2.1 >>> 3 :=
    shiftLeft3_inj _ _ (congrArg (fun p : V3 => p.1) h)
  have h2 : c.2.1 >>> 3 = c2.2.1 >>> 3 :=
    shiftLeft3_inj _ _ (congrArg (fun p : V3 => p.2.1) h)
  have h3 : c.2.2 >>> 3 = c2.2.2 >>> 3 :=
    shiftLeft3_inj _ _ (congrArg (fun p : V3 => p.2.2) h)
  have t1 := testBit_high_eq _ _ l h1
  have t2 := testBit_high_eq _ _ l h2
  have t3 := testBit_high_eq _ _ l h3
  apply Fin.ext
  simp only [childIdx, blockBits]
  rw [t1, t2, t3]

/-- The fetch descent only examines bits at or above the block bits, so
coordinates in the same block extent fetch the same block. -/
theorem fetchOct_congr (l : ℕ) (o : Octant) (c c2 : V3)
    (h : blockBase c = blockBase c2) :
    fetchOct l o c = fetchOct l o c2 := by
  induction l generalizing o with
  | zero => cases o <;> rfl
  | succ l ih =>
    cases o with
    | block vox => rfl
    | node d ch =>
      simp only [fetchOct]
      rw [childIdx_eq_of_blockBase c c2 l h]
      cases ch (childIdx c2 (l + blockBits)) with
      | none => rfl
      | some o2 => exact ih o2

/-- Coordinates in the same block extent fetch the same block. -/
theorem fetch_congr (t : Octree) (c c2 : V3) (h : blockBase c = blockBase c2) :
    fetch t c = fetch t c2 :=
  fetchOct_congr t.levels t.root c c2 h

/-- C4: Hinted and unhinted lookups agree: for any hint block of the octree,
`fetch(octree, hint, coord)` equals `fetch(octree, coord)`, and the hinted
`getData`/`getField` overloads return the same result as their unhinted
counterparts. -/
theorem fetch_hint_equiv (t : Octree) (hint : BlockRef) (c : V3)
    (hh : fetch t hint.base = some hint.vox) :
    fetchHinted t hint c = fetch t c ∧ getDataHinted t hint c = getData t c ∧
      getFieldHinted t hint c = getField t c := by
  have hf : fetchHinted t hint c = fetch t c := by
    unfold fetchHinted
    by_cases hb : blockBase c = hint.base
    · rw [if_pos hb]
      have hbb : blockBase c = blockBase hint.base := by
        rw [← hb, blockBase_idem]
      rw [fetch_congr t c hint.base hbb, hh]
    · rw [if_neg hb]
  refine ⟨hf, ?_, ?_⟩
  · simp only [getDataHinted, getData, hf]
  · simp only [getFieldHinted, getField, getDataHinted, getData, hf]

/-- Witness for C4: on a concrete octree, the block at the origin serves as a
hint for a query in a different block and the hinted lookups agree with the
unhinted ones. -/
theorem fetch_hint_equiv_witness :
    fetch fullTree (0, 0, 0) = some fullVox ∧
    fetchHinted fullTree ⟨(0, 0, 0), fullVox⟩ (9, 2, 3) = fetch fullTree (9, 2, 3) ∧
    getFieldHinted fullTree ⟨(0, 0, 0), fullVox⟩ (9, 2, 3) = getField fullTree (9, 2, 3) := by
  have hh : fetch fullTree (0, 0, 0) = some fullVox := rfl
  have h := fetch_hint_equiv fullTree ⟨(0, 0, 0), fullVox⟩ (9, 2, 3) hh
  exact ⟨hh, h.1, h.2.2⟩

/-- Re-allocating the coordinate just allocated changes nothing in the
tree. -/
theorem allocOct_idem (l : ℕ) (o : Octant) (c : V3) :
    allocOct l (allocOct l o c) c = allocOct l o c := by
  induction l generalizing o with
  | zero => rfl
  | succ l ih =>
    cases o with
    | block vox => rfl
    | node d ch =>
      simp only [allocOct, Function.update_same, Option.getD_some, Function.update_idem]
      rw [ih]

/-- Freshly created octants are structurally well formed. -/
theorem levelOK_fresh (l : ℕ) : levelOK l (freshOctant l) = true := by
  cases l with
  | zero => rfl
  | succ l => simp [levelOK, freshOctant]

/-- Children of a well-formed node are well formed one level down. -/
theorem levelOK_child (l : ℕ) (d : TsdfData) (ch : Fin 8 → Option Octant)
    (hok : levelOK (l + 1) (.node d ch) = true) (i : Fin 8) (o2 : Octant)
    (hch : ch i = some o2) : levelOK l o2 = true := by
  simp only [levelOK, List.all_eq_true] at hok
  have h := hok i (List.mem_finRange i)
  rw [hch] at h
  exact h

/-- After allocation the fetch of the allocated coordinate finds a block. -/
theorem allocOct_fetch (l : ℕ) (o : Octant) (c : V3) (hok : levelOK l o = true) :
    ∃ vox, fetchOct l (allocOct l o c) c = some vox := by
  induction l generalizing o with
  | zero =>
    cases o with
    | block vox => exact ⟨vox, rfl⟩
    | node d ch => simp [levelOK] at hok
  | succ l ih =>
    cases o with
    | block vox => simp [levelOK] at hok
    | node d ch =>
      simp only [allocOct, fetchOct, Function.update_same]
      have hchild : levelOK l ((ch (childIdx c (l + blockBits))).getD (freshOctant l)) = true := by
        cases hch : ch (childIdx c (l + blockBits)) with
        | none => simpa [hch] using levelOK_fresh l
        | some o2 => simpa [hch] using levelOK_child l d ch hok _ o2 hch
      exact ih _ hchild

/-- C7: Allocation is idempotent: allocating the same in-bounds coordinate a
second time leaves the octree unchanged — so both calls return the same
block and the second call creates no additional octants — and the returned
block exists. -/
theorem allocate_idem (t : Octree) (c : V3) (hok : levelOK t.levels t.root = true) :
    allocate (allocate t c).1 c = allocate t c ∧
      ((allocate t c).2).isSome = true := by
  have hroot : allocOct t.levels (allocOct t.levels t.root c) c = allocOct t.levels t.root c :=
    allocOct_idem t.levels t.root c
  constructor
  · simp only [allocate, hroot]
  · simp only [allocate]
    obtain ⟨vox, hv⟩ := allocOct_fetch t.levels t.root c hok
    simp [fetch, hv]

/-- Witness for C7: allocating the origin twice in a concrete empty octree
returns the same block both times and the tree is unchanged by the second
call. -/
theorem allocate_idem_witness :
    levelOK emptyNodeTree.levels emptyNodeTree.root = true ∧
    allocate (allocate emptyNodeTree (0, 0, 0)).1 (0, 0, 0) = allocate emptyNodeTree (0, 0, 0) ∧
    ((allocate emptyNodeTree (0, 0, 0)).2).isSome = true := by
  have hok : levelOK emptyNodeTree.levels emptyNodeTree.root = true := rfl
  have h := allocate_idem emptyNodeTree (0, 0, 0) hok
  exact ⟨hok, h.1, h.2⟩

/-- The eight trilinear corner weights always sum to one. -/
theorem cornerWeight_sum (cf : QV3) : ∑ i : Fin 8, cornerWeight cf i = 1 := by
  have h0 : cornerOffset 0 = (0, 0, 0) := rfl
  have h1 : cornerOffset 1 = (1, 0, 0) := rfl
  have h2 : cornerOffset 2 = (0, 1, 0) := rfl
  have h3 : cornerOffset 3 = (1, 1, 0) := rfl
  have h4 : cornerOffset 4 = (0, 0, 1) := rfl
  have h5 : cornerOffset 5 = (1, 0, 1) := rfl
  have h6 : cornerOffset 6 = (0, 1, 1) := rfl
  have h7 : cornerOffset 7 = (1, 1, 1) := rfl
  simp only [Fin.sum_univ_eight, cornerWeight, h0, h1, h2, h3, h4, h5, h6, h7, axisWeight]
  norm_num
  ring

/-- Trilinear interpolation of a constant corner stencil returns the
constant. -/
theorem getFieldInterp_of_const (t : Octree) (cf : QV3) (k : ℚ)
    (h : ∀ i : Fin 8, getField t (cornerCoord cf i) = some k) :
    getFieldInterp t cf = some k := by
  have hall : ∀ i : Fin 8, (getField t (cornerCoord cf i)).isSome = true := by
    intro i
    rw [h i]
    rfl
  unfold getFieldInterp
  rw [if_pos hall]
  congr 1
  have hterm : ∀ i : Fin 8,
      cornerWeight cf i * (getField t (cornerCoord cf i)).getD 0 = cornerWeight cf i * k := by
    intro i
    rw [h i]
    rfl
  rw [Finset.sum_congr rfl (fun i _ => hterm i), ← Finset.sum_mul, cornerWeight_sum, one_mul]

/-- C5: If the 8 corners bracketing an integer coordinate are all valid and
store the same constant field value `k`, then `getFieldInterp` succeeds there
and returns `k` within the floating-point tolerance 1e-5 (in this rational
model the result is exact). -/
theorem getFieldInterp_exact_int (t : Octree) (c : V3) (k : ℚ)
    (h : ∀ i : Fin 8,
      getField t (cornerCoord ((c.1 : ℚ), (c.2.1 : ℚ), (c.2.2 : ℚ)) i) = some k) :
    ∃ v, getFieldInterp t ((c.1 : ℚ), (c.2.1 : ℚ), (c.2.2 : ℚ)) = some v ∧
      |v - k| < 1/100000 := by
  refine ⟨k, getFieldInterp_of_const t _ k h, ?_⟩
  norm_num

/-- Witness for C5: on a concrete octree holding valid value 1/2 everywhere,
the interpolation at the integer coordinate (1, 1, 1) returns exactly 1/2. -/
theorem getFieldInterp_exact_int_witness :
    (∀ i : Fin 8,
      getField fullTree (cornerCoord (((1 : ℕ) : ℚ), ((1 : ℕ) : ℚ), ((1 : ℕ) : ℚ)) i) =
        some (1/2)) ∧
    ∃ v, getFieldInterp fullTree (((1 : ℕ) : ℚ), ((1 : ℕ) : ℚ), ((1 : ℕ) : ℚ)) = some v ∧
      |v - 1/2| < 1/100000 := by
  have hc : ∀ i : Fin 8,
      cornerCoord (((1 : ℕ) : ℚ), ((1 : ℕ) : ℚ), ((1 : ℕ) : ℚ)) i =
        (1 + (cornerOffset i).1, 1 + (cornerOffset i).2.1, 1 + (cornerOffset i).2.2) := by
    intro i
    simp [cornerCoord, interpBase]
  have h : ∀ i : Fin 8,
      getField fullTree (cornerCoord (((1 : ℕ) : ℚ), ((1 : ℕ) : ℚ), ((1 : ℕ) : ℚ)) i) =
        some (1/2) := by
    intro i
    rw [hc i]
    fin_cases i <;> rfl
  exact ⟨h, getFieldInterp_exact_int fullTree (1, 1, 1) (1/2) h⟩

/-- Floor of a natural-cast coordinate shifted up by half a voxel. -/
theorem floor_half_add (n : ℕ) : (⌊(n : ℚ) + 1/2⌋).toNat = n := by
  have h0 : ⌊(1/2 : ℚ)⌋ = 0 := by norm_num
  rw [add_comm, Int.floor_add_nat, h0]
  omega

/-- Floor of a natural-cast coordinate shifted down by half a voxel. -/
theorem floor_sub_half (n : ℕ) : (⌊(n : ℚ) - 1/2⌋).toNat = n - 1 := by
  have h0 : ⌊(-(1/2) : ℚ)⌋ = -1 := by norm_num
  have he : (n : ℚ) - 1/2 = -(1/2) + n := by ring
  rw [he, Int.floor_add_nat, h0]
  omega

/-- Floor of a natural-cast coordinate. -/
theorem floor_natCast_toNat (n : ℕ) : (⌊(n : ℚ)⌋).toNat = n := by
  rw [Int.floor_natCast]
  omega

/-- A constant valid 3×3×3 neighbourhood determines `getField` on every
coordinate inside it. -/
theorem getField_neighbor (t : Octree) (c : V3) (k : ℚ)
    (hk : ∀ a b e : Fin 3,
      getField t (c.1 - 1 + a.val, c.2.1 - 1 + b.val, c.2.2 - 1 + e.val) = some k)
    (p : V3)
    (hpx1 : c.1 - 1 ≤ p.1) (hpx2 : p.1 ≤ c.1 + 1)
    (hpy1 : c.2.1 - 1 ≤ p.2.1) (hpy2 : p.2.1 ≤ c.2.1 + 1)
    (hpz1 : c.2.2 - 1 ≤ p.2.2) (hpz2 : p.2.2 ≤ c.2.2 + 1) :
    getField t p = some k := by
  have h0 : getField t
      (c.1 - 1 + (p.1 - (c.1 - 1)), c.2.1 - 1 + (p.2.1 - (c.2.1 - 1)),
        c.2.2 - 1 + (p.2.2 - (c.2.2 - 1))) = some k :=
    hk ⟨p.1 - (c.1 - 1), by omega⟩ ⟨p.2.1 - (c.2.1 - 1), by omega⟩
      ⟨p.2.2 - (c.2.2 - 1), by omega⟩
  have hp : (c.1 - 1 + (p.1 - (c.1 - 1)), c.2.1 - 1 + (p.2.1 - (c.2.1 - 1)),
      c.2.2 - 1 + (p.2.2 - (c.2.2 - 1))) = p := by
    have e1 : c.1 - 1 + (p.1 - (c.1 - 1)) = p.1 := by omega
    have e2 : c.2.1 - 1 + (p.2.1 - (c.2.1 - 1)) = p.2.1 := by omega
    have e3 : c.2.2 - 1 + (p.2.2 - (c.2.2 - 1)) = p.2.2 := by omega
    rw [e1, e2, e3]
  rw [hp] at h0
  exact h0

/-- C6: If a 3×3×3 neighbourhood around an integer coordinate holds a
constant valid field value, `getFieldGrad` succeeds at that coordinate and
returns the zero vector within tolerance (each central difference of equal
interpolated samples vanishes; exact in this rational model). -/
theorem getFieldGrad_const_zero (t : Octree) (c : V3) (k : ℚ)
    (hx : 1 ≤ c.1) (hy : 1 ≤ c.2.1) (hz : 1 ≤ c.2.2)
    (hk : ∀ a b e : Fin 3,
      getField t (c.1 - 1 + a.val, c.2.1 - 1 + b.val, c.2.2 - 1 + e.val) = some k) :
    ∃ g, getFieldGrad t ((c.1 : ℚ), (c.2.1 : ℚ), (c.2.2 : ℚ)) = some g ∧
      |g.1| < 1/100000 ∧ |g.2.1| < 1/100000 ∧ |g.2.2| < 1/100000 := by
  have hxp : getFieldInterp t ((c.1 : ℚ) + 1/2, (c.2.1 : ℚ), (c.2.2 : ℚ)) = some k := by
    apply getFieldInterp_of_const
    intro i
    apply getField_neighbor t c k hk <;>
      simp only [cornerCoord, interpBase, cornerOffset,
        floor_half_add, floor_sub_half, floor_natCast_toNat] <;> omega
  have hxm : getFieldInterp t ((c.1 : ℚ) - 1/2, (c.2.1 : ℚ), (c.2.2 : ℚ)) = some k := by
    apply getFieldInterp_of_const
    intro i
    apply getField_neighbor t c k hk <;>
      simp only [cornerCoord, interpBase, cornerOffset,
        floor_half_add, floor_sub_half, floor_natCast_toNat] <;> omega
  have hyp : getFieldInterp t ((c.1 : ℚ), (c.2.1 : ℚ) + 1/2, (c.2.2 : ℚ)) = some k := by
    apply getFieldInterp_of_const
    intro i
    apply getField_neighbor t c k hk <;>
      simp only [cornerCoord, interpBase, cornerOffset,
        floor_half_add, floor_sub_half, floor_natCast_toNat] <;> omega
  have hym : getFieldInterp t ((c.1 : ℚ), (c.2.1 : ℚ) - 1/2, (c.2.2 : ℚ)) = some k := by
    apply getFieldInterp_of_const
    intro i
    apply getField_neighbor t c k hk <;>
      simp only [cornerCoord, interpBase, cornerOffset,
        floor_half_add, floor_sub_half, floor_natCast_toNat] <;> omega
  have hzp : getFieldInterp t ((c.1 : ℚ), (c.2.1 : ℚ), (c.2.2 : ℚ) + 1/2) = some k := by
    apply getFieldInterp_of_const
    intro i
    apply getField_neighbor t c k hk <;>
      simp only [cornerCoord, interpBase, cornerOffset,
        floor_half_add, floor_sub_half, floor_natCast_toNat] <;> omega
  have hzm : getFieldInterp t ((c.1 : ℚ), (c.2.1 : ℚ), (c.2.2 : ℚ) - 1/2) = some k := by
    apply getFieldInterp_of_const
    intro i
    apply getField_neighbor t c k hk <;>
      simp only [cornerCoord, interpBase, cornerOffset,
        floor_half_add, floor_sub_half, floor_natCast_toNat] <;> omega
  refine ⟨(0, 0, 0), ?_, by norm_num, by norm_num, by norm_num⟩
  simp only [getFieldGrad]
  rw [hxp, hxm, hyp, hym, hzp, hzm]
  norm_num

/-- Witness for C6: on a concrete octree holding valid value 1/2 everywhere,
the gradient at the integer coordinate (1, 1, 1) is the zero vector. -/
theorem getFieldGrad_const_zero_witness :
    (∀ a b e : Fin 3,
      getField fullTree (1 - 1 + a.val, 1 - 1 + b.val, 1 - 1 + e.val) = some (1/2)) ∧
    ∃ g, getFieldGrad fullTree (((1 : ℕ) : ℚ), ((1 : ℕ) : ℚ), ((1 : ℕ) : ℚ)) = some g ∧
      |g.1| < 1/100000 ∧ |g.2.1| < 1/100000 ∧ |g.2.2| < 1/100000 := by
  have hk : ∀ a b e : Fin 3,
      getField fullTree (1 - 1 + a.val, 1 - 1 + b.val, 1 - 1 + e.val) = some (1/2) := by
    intro a b e
    fin_cases a <;> fin_cases b <;> fin_cases e <;> rfl
  exact ⟨hk, getFieldGrad_const_zero fullTree (1, 1, 1) (1/2)
    (by decide) (by decide) (by decide) hk⟩

/-- The alpha byte of any word packed with alpha 255 is 255. -/
theorem pack_rgba_alpha (r g b : ℕ) : pack_rgba r g b 255 / 16777216 % 256 = 255 := by
  unfold pack_rgba
  have h1 : r % 256 < 256 := Nat.mod_lt _ (by norm_num)
  have h2 : g % 256 < 256 := Nat.mod_lt _ (by norm_num)
  have h3 : b % 256 < 256 := Nat.mod_lt _ (by norm_num)
  omega

/-- Every branch of `gray_to_rgba` produces a fully opaque colour. -/
theorem gray_to_rgba_alpha (h : ℚ) : gray_to_rgba h / 16777216 % 256 = 255 := by
  simp only [gray_to_rgba]
  split_ifs <;> apply pack_rgba_alpha

/-- C9: Each output pixel of `depth_to_rgba` is exactly one of four cases,
tested in order — opaque black for non-positive or NaN depth, opaque gray
below the minimum depth, opaque white above the maximum depth, and otherwise
the `gray_to_rgba` colour of the normalized depth — and in every case,
including every branch of `gray_to_rgba`, the alpha byte is 255. -/
theorem depth_to_rgba_cases (img : List (Option ℚ)) (mn mx : ℚ) (i : ℕ)
    (hi : i < img.length) :
    (depth_to_rgba img mn mx).getD i 0 = depth_to_rgba_pixel (img.getD i none) mn mx ∧
    depth_to_rgba_pixel (img.getD i none) mn mx / 16777216 % 256 = 255 ∧
    (img.getD i none = none → depth_to_rgba_pixel (img.getD i none) mn mx = 0xFF000000) ∧
    (∀ q : ℚ, img.getD i none = some q →
      (q ≤ 0 → depth_to_rgba_pixel (img.getD i none) mn mx = 0xFF000000) ∧
      (0 < q → q < mn → depth_to_rgba_pixel (img.getD i none) mn mx = 0xFF808080) ∧
      (0 < q → ¬ q < mn → mx < q →
        depth_to_rgba_pixel (img.getD i none) mn mx = 0xFFFFFFFF) ∧
      (0 < q → ¬ q < mn → ¬ mx < q →
        depth_to_rgba_pixel (img.getD i none) mn mx =
          gray_to_rgba ((q - mn) / (mx - mn)))) := by
  have hmap : (depth_to_rgba img mn mx).getD i 0 =
      depth_to_rgba_pixel (img.getD i none) mn mx := by
    unfold depth_to_rgba
    rcases hg : img[i]? with _ | d
    · rw [List.getElem?_eq_none_iff] at hg
      omega
    · rw [List.getD_eq_getElem?_getD, List.getElem?_map, hg,
        List.getD_eq_getElem?_getD, hg]
      rfl
  have halpha : depth_to_rgba_pixel (img.getD i none) mn mx / 16777216 % 256 = 255 := by
    rcases img.getD i none with _ | q
    · norm_num [depth_to_rgba_pixel]
    · simp only [depth_to_rgba_pixel]
      split_ifs <;> first | apply gray_to_rgba_alpha | norm_num
  refine ⟨hmap, halpha, ?_, ?_⟩
  · intro hnone
    rw [hnone]
    rfl
  · intro q hq
    rw [hq]
    refine ⟨?_, ?_, ?_, ?_⟩
    · intro h0
      simp only [depth_to_rgba_pixel, if_pos h0]
    · intro h0 h1
      simp only [depth_to_rgba_pixel]
      rw [if_neg (by linarith), if_pos h1]
    · intro h0 h1 h2
      simp only [depth_to_rgba_pixel]
      rw [if_neg (by linarith), if_neg h1, if_pos h2]
    · intro h0 h1 h2
      simp only [depth_to_rgba_pixel]
      rw [if_neg (by linarith), if_neg h1, if_neg h2, mul_one_div]

/-- Witness for C9: on a concrete one-pixel image with an in-range depth, the
output pixel equals the per-pixel conversion and its alpha byte is 255. -/
theorem depth_to_rgba_cases_witness :
    0 < ([some (2 : ℚ)] : List (Option ℚ)).length ∧
    (depth_to_rgba [some (2 : ℚ)] 1 3).getD 0 0 =
      depth_to_rgba_pixel (([some (2 : ℚ)] : List (Option ℚ)).getD 0 none) 1 3 ∧
    depth_to_rgba_pixel (([some (2 : ℚ)] : List (Option ℚ)).getD 0 none) 1 3 /
      16777216 % 256 = 255 := by
  have h := depth_to_rgba_cases [some (2 : ℚ)] 1 3 0 (by norm_num)
  exact ⟨by norm_num, h.1, h.2.1⟩

/-- Unfolding equation of the scale walk. -/
theorem findValidScale_eq (vox : BlockData) (c : V3) (s : ℕ) :
    findValidScale vox c s =
      if maxBlockScale < s then none
      else if isValid (vox s (scaledLocal c s)) then some s
      else findValidScale vox c (s + 1) := by
  rw [findValidScale]

/-- A successful scale walk returns the least valid scale at or above the
starting scale, within the block's scale range. -/
theorem findValidScale_some_spec (vox : BlockData) (c : V3) :
    ∀ n s s2, maxBlockScale + 1 - s ≤ n → findValidScale vox c s = some s2 →
      s ≤ s2 ∧ s2 ≤ maxBlockScale ∧ isValid (vox s2 (scaledLocal c s2)) = true ∧
        ∀ u, s ≤ u → u < s2 → isValid (vox u (scaledLocal c u)) = false := by
  intro n
  induction n with
  | zero =>
    intro s s2 hn hf
    rw [findValidScale_eq, if_pos (by omega)] at hf
    exact absurd hf (by simp)
  | succ n ih =>
    intro s s2 hn hf
    rw [findValidScale_eq] at hf
    by_cases h1 : maxBlockScale < s
    · rw [if_pos h1] at hf
      exact absurd hf (by simp)
    · rw [if_neg h1] at hf
      by_cases h2 : isValid (vox s (scaledLocal c s)) = true
      · rw [if_pos h2] at hf
        have hs : s = s2 := by
          injection hf
        subst hs
        refine ⟨le_refl s, by omega, h2, ?_⟩
        intro u hu1 hu2
        exact absurd hu2 (by omega)
      · rw [if_neg h2] at hf
        have hrec := ih (s + 1) s2 (by omega) hf
        refine ⟨by omega, hrec.2.1, hrec.2.2.1, ?_⟩
        intro u hu1 hu2
        by_cases hu : u = s
        · subst hu
          simpa using h2
        · exact hrec.2.2.2 u (by omega) hu2

/-- A failed scale walk means every scale in the walked range is invalid. -/
theorem findValidScale_none_spec (vox : BlockData) (c : V3) :
    ∀ n s, maxBlockScale + 1 - s ≤ n → findValidScale vox c s = none →
      ∀ u, s ≤ u → u ≤ maxBlockScale → isValid (vox u (scaledLocal c u)) = false := by
  intro n
  induction n with
  | zero =>
    intro s hn hf u hu1 hu2
    exact absurd hu2 (by omega)
  | succ n ih =>
    intro s hn hf u hu1 hu2
    rw [findValidScale_eq] at hf
    by_cases h1 : maxBlockScale < s
    · exact absurd hu2 (by omega)
    · rw [if_neg h1] at hf
      by_cases h2 : isValid (vox s (scaledLocal c s)) = true
      · rw [if_pos h2] at hf
        exact absurd hf (by simp)
      · rw [if_neg h2] at hf
        by_cases hu : u = s
        · subst hu
          simpa using h2
        · exact ih (s + 1) (by omega) hf u (by omega) hu2

/-- C3: Multi-resolution `getData` walks scale levels starting at the desired
scale and coarsening: the returned scale is always at least the desired one;
when the owning block has a valid datum at some scale in range, the returned
scale is the finest such scale, the returned datum is the block's datum at
that scale, and it is valid; when every scale in range is invalid, the
result falls back to the coarsest ancestor octant's representative value
with the clamped fallback scale. -/
theorem getDataMR_scale (t : Octree) (c : V3) (sd : ℕ) :
    sd ≤ (getDataMR t c sd).2 ∧
    (∀ vox, fetchAncOct t.levels t.root c = .blk vox →
      (∀ u, sd ≤ u → u ≤ maxBlockScale → isValid (vox u (scaledLocal c u)) = true →
        (getDataMR t c sd).2 ≤ u ∧
        isValid (vox (getDataMR t c sd).2 (scaledLocal c (getDataMR t c sd).2)) = true ∧
        (getDataMR t c sd).1 = vox (getDataMR t c sd).2 (scaledLocal c (getDataMR t c sd).2)) ∧
      ((∀ u, sd ≤ u → u ≤ maxBlockScale → isValid (vox u (scaledLocal c u)) = false) →
        getDataMR t c sd = (octantRep c t.root, max sd (t.levels + blockBits)))) := by
  constructor
  · cases hfa : fetchAncOct t.levels t.root c with
    | blk vox =>
      cases hfv : findValidScale vox c sd with
      | none =>
        have hred : getDataMR t c sd = (octantRep c t.root, max sd (t.levels + blockBits)) := by
          simp only [getDataMR, hfa, hfv]
        rw [hred]
        exact le_max_left _ _
      | some s2 =>
        have hred : getDataMR t c sd = (vox s2 (scaledLocal c s2), s2) := by
          simp only [getDataMR, hfa, hfv]
        rw [hred]
        exact (findValidScale_some_spec vox c (maxBlockScale + 1 - sd) sd s2 (le_refl _) hfv).1
    | anc d s =>
      have hred : getDataMR t c sd = (d, max sd s) := by
        simp only [getDataMR, hfa]
      rw [hred]
      exact le_max_left _ _
  · intro vox hfa
    constructor
    · intro u hu1 hu2 hval
      cases hfv : findValidScale vox c sd with
      | none =>
        have hfalse := findValidScale_none_spec vox c (maxBlockScale + 1 - sd) sd
          (le_refl _) hfv u hu1 hu2
        rw [hval] at hfalse
        exact absurd hfalse (by simp)
      | some s2 =>
        have hs := findValidScale_some_spec vox c (maxBlockScale + 1 - sd) sd s2 (le_refl _) hfv
        have hle : s2 ≤ u := by
          by_contra hlt
          push_neg at hlt
          have hbad := hs.2.2.2 u hu1 hlt
          rw [hval] at hbad
          exact absurd hbad (by simp)
        have hred : getDataMR t c sd = (vox s2 (scaledLocal c s2), s2) := by
          simp only [getDataMR, hfa, hfv]
        rw [hred]
        exact ⟨hle, hs.2.2.1, rfl⟩
    · intro hall
      have hfv : findValidScale vox c sd = none := by
        cases hfv2 : findValidScale vox c sd with
        | none => rfl
        | some s2 =>
          have hs := findValidScale_some_spec vox c (maxBlockScale + 1 - sd) sd s2
            (le_refl _) hfv2
          have hbad := hall s2 hs.1 hs.2.1
          rw [hs.2.2.1] at hbad
          exact absurd hbad (by simp)
      simp only [getDataMR, hfa, hfv]

/-- Witness for C3: on a concrete multi-resolution octree that is invalid at
scale 0 and valid from scale 1, the desired-scale-0 query returns scale 1
with a valid datum, and the returned scale is at least the desired one. -/
theorem getDataMR_scale_witness :
    fetchAncOct mrTree.levels mrTree.root (0, 0, 0) = .blk mrVox ∧
    0 ≤ (getDataMR mrTree (0, 0, 0) 0).2 ∧
    (getDataMR mrTree (0, 0, 0) 0).2 ≤ 1 ∧
    isValid (mrVox (getDataMR mrTree (0, 0, 0) 0).2
      (scaledLocal (0, 0, 0) (getDataMR mrTree (0, 0, 0) 0).2)) = true := by
  have hb : fetchAncOct mrTree.levels mrTree.root (0, 0, 0) = .blk mrVox := rfl
  have h := getDataMR_scale mrTree (0, 0, 0) 0
  have h2 := (h.2 mrVox hb).1 1 (by omega) (by norm_num [maxBlockScale]) (by rfl)
  exact ⟨hb, h.1, h2.1, h2.2.1⟩
